import Mathlib

/-!
Verification development for the hugo-extended CLI grammar extraction and
argv-serialization pipeline.

The definitions below are a shallow embedding of two source modules:

* the runtime argument-vector builder (camelToKebab, findFlag, inferKind,
  buildArgs) together with the JavaScript value model it operates on, and
* the help-text schema generator (type-token whitelist, default and enum
  extractors, flag-line post-processing, global-flag deduplication, the
  schema assembler and the breadth-first command-tree discovery loop).

JavaScript strings are modeled as Lean String values, JavaScript runtime
values as the JSValue inductive, and regular-expression driven extraction
as explicit character-list scanners that follow the backtracking behavior
of the concrete patterns used by the source.
-/

set_option maxHeartbeats 1000000

/-- Model of a JavaScript runtime value as received by the options object of
the argument-vector builder. -/
inductive JSValue where
  | bool : Bool → JSValue
  | num : Int → JSValue
  | str : String → JSValue
  | arr : List JSValue → JSValue
  | null : JSValue
  | undef : JSValue

mutual

/-- JavaScript String(value) conversion for the values modeled by JSValue. -/
def jsToString : JSValue → String
  | JSValue.bool true => "true"
  | JSValue.bool false => "false"
  | JSValue.num n => toString n
  | JSValue.str s => s
  | JSValue.null => "null"
  | JSValue.undef => "undefined"
  | JSValue.arr l => jsArrToString l

/-- JavaScript Array.prototype.toString: elements joined with commas, with
null and undefined elements rendered as the empty string. -/
def jsArrToString : List JSValue → String
  | [] => ""
  | [JSValue.null] => ""
  | [JSValue.undef] => ""
  | [v] => jsToString v
  | JSValue.null :: w :: rest => "," ++ jsArrToString (w :: rest)
  | JSValue.undef :: w :: rest => "," ++ jsArrToString (w :: rest)
  | v :: w :: rest => jsToString v ++ "," ++ jsArrToString (w :: rest)

end

/-- Normalized flag kinds used both by the generator and the builder. The
source spells them "boolean", "string", "number", "string[]", "number[]". -/
inductive FlagKind where
  | boolean : FlagKind
  | string : FlagKind
  | number : FlagKind
  | stringList : FlagKind
  | numberList : FlagKind
deriving DecidableEq, Repr

/-- A single CLI flag as stored in the generated schema. -/
structure FlagSpec where
  long : String
  short : Option String := none
  typeToken : Option String := none
  kind : FlagKind
  description : String := ""
  enum : Option (List String) := none
  defaultRaw : Option String := none
deriving DecidableEq, Repr

/-- A command entry of the runtime schema: space-joined command path plus its
local flags. -/
structure CommandSpec where
  command : String
  flags : List FlagSpec
deriving DecidableEq, Repr

/-- The persisted runtime schema: deduplicated global flags plus per-command
local flags. -/
structure HugoSpec where
  globalFlags : List FlagSpec
  commands : List CommandSpec
deriving DecidableEq, Repr

/-- JavaScript split on a single-space separator: every occurrence of the
separator starts a new (possibly empty) group. -/
def splitSpace : List Char → List (List Char)
  | [] => [[]]
  | c :: rest =>
    if c = ' ' then [] :: splitSpace rest
    else
      match splitSpace rest with
      | [] => [[c]]
      | g :: gs => (c :: g) :: gs

/-- String-level wrapper for splitSpace, the model of command.split(" "). -/
def jsSplitSpace (s : String) : List String :=
  (splitSpace s.data).map String.mk

/-- Whether a flag name carries the leading double-dash marker. -/
def hasDashes (s : String) : Bool :=
  match s.data with
  | '-' :: '-' :: _ => true
  | _ => false

/-- ASCII lowercasing of a string, character by character. -/
def jsToLower (s : String) : String :=
  String.mk (s.data.map Char.toLower)

/-- Expansion of a single character performed by camelToKebab: an ASCII
uppercase letter becomes a dash followed by its lowercase form. -/
def kebabChar (c : Char) : List Char :=
  if c.isUpper then ['-', c.toLower] else [c]

/-- Convert a camelCase property name to a kebab-case flag name, replacing
every ASCII uppercase letter by a dash and its lowercase form. -/
def camelToKebab (name : String) : String :=
  String.mk (name.data.flatMap kebabChar)

/-- Find a flag spec by its camelCase property name: the long name with the
leading dashes removed must equal either the kebab-case conversion of the
property name or the property name itself; the first match wins. -/
def findFlag (flags : List FlagSpec) (propName : String) : Option FlagSpec :=
  let kebab := camelToKebab propName
  flags.find? (fun f =>
    let flagName := if hasDashes f.long then String.mk (f.long.data.drop 2) else f.long
    flagName == kebab || flagName == propName)

/-- Infer the kind of a value when no flag spec is available, from the
JavaScript runtime type: booleans and numbers map directly, a nonempty array
whose first element is a number maps to number-list, any other array maps to
string-list, and everything else maps to string. -/
def inferKind : JSValue → FlagKind
  | JSValue.bool _ => FlagKind.boolean
  | JSValue.num _ => FlagKind.number
  | JSValue.arr (JSValue.num _ :: _) => FlagKind.numberList
  | JSValue.arr _ => FlagKind.stringList
  | _ => FlagKind.string

/-- Bool-valued test distinguishing number values, mirroring the typeof check
used by the kind-inference fallback. -/
def isNumValue : JSValue → Bool
  | JSValue.num _ => true
  | _ => false

/-- Emission loop for array-valued flags: the flag token is repeated before
the string representation of each element, in array order. -/
def emitList (flagName : String) : List JSValue → List String
  | [] => []
  | item :: rest => flagName :: jsToString item :: emitList flagName rest

/-- Serialize one resolved option according to its kind: booleans emit the
bare flag token only for the literal true value, strings and numbers emit the
token followed by the stringified value, and list kinds repeat the token per
array element (emitting nothing for a non-array value). -/
def formatFlag (flagName : String) (kind : FlagKind) (value : JSValue) : List String :=
  match kind with
  | FlagKind.boolean =>
    match value with
    | JSValue.bool true => [flagName]
    | _ => []
  | FlagKind.string => [flagName, jsToString value]
  | FlagKind.number => [flagName, jsToString value]
  | FlagKind.stringList =>
    match value with
    | JSValue.arr items => emitList flagName items
    | _ => []
  | FlagKind.numberList =>
    match value with
    | JSValue.arr items => emitList flagName items
    | _ => []

/-- Per-option processing loop of buildArgs: null and undefined values are
skipped, the flag spec is resolved by findFlag, the emitted token comes from
the spec when present (prefixing dashes when the stored long name lacks them)
and from hyphenating the key otherwise, and the kind falls back to runtime
type inference for unknown keys. -/
def emitOpts (allFlags : List FlagSpec) : List (String × JSValue) → List String
  | [] => []
  | (_, JSValue.undef) :: rest => emitOpts allFlags rest
  | (_, JSValue.null) :: rest => emitOpts allFlags rest
  | (key, value) :: rest =>
    let flagSpec := findFlag allFlags key
    let flagName :=
      match flagSpec with
      | some f => if hasDashes f.long then f.long else "--" ++ f.long
      | none => "--" ++ camelToKebab key
    let kind :=
      match flagSpec with
      | some f => f.kind
      | none => inferKind value
    formatFlag flagName kind value ++ emitOpts allFlags rest

/-- The union of flag specs consulted for a buildArgs call: all global flags
followed by the local flags of the matching command entry, if any. -/
def allFlagsFor (spec : HugoSpec) (command : String) : List FlagSpec :=
  spec.globalFlags ++
    (match spec.commands.find? (fun c => c.command == command) with
     | some c => c.flags
     | none => [])

/-- Build command-line arguments from a command string and an options list:
the command is split on spaces into leading tokens, an empty options list
yields just those tokens, and otherwise each option is serialized against the
union of global and command-local flags. -/
def buildArgs (spec : HugoSpec) (command : String)
    (options : List (String × JSValue)) : List String :=
  let args := jsSplitSpace command
  if options.isEmpty then args
  else args ++ emitOpts (allFlagsFor spec command) options

namespace GenTypes

/-- JavaScript whitespace class, by Unicode code point: tab, line feed,
vertical tab, form feed, carriage return, space, no-break space, ogham space
mark, the general punctuation spaces, line and paragraph separators, narrow
no-break space, medium mathematical space, ideographic space, and the byte
order mark. -/
def isWs (c : Char) : Bool :=
  let n := c.toNat
  n == 9 || n == 10 || n == 11 || n == 12 || n == 13 || n == 32 || n == 160 ||
    n == 5760 || (8192 ≤ n && n ≤ 8202) || n == 8232 || n == 8233 ||
    n == 8239 || n == 8287 || n == 12288 || n == 65279

/-- Characters accepted by the conservative enum-token pattern: ASCII
letters, digits, dot, underscore and hyphen. -/
def isSimpleChar (c : Char) : Bool :=
  let n := c.toNat
  (65 ≤ n && n ≤ 90) || (97 ≤ n && n ≤ 122) || (48 ≤ n && n ≤ 57) ||
    n == 46 || n == 95 || n == 45

/-- Case-insensitive character comparison used for the ignore-case flag of
the default-clause pattern. -/
def ciEqChar (a b : Char) : Bool :=
  a.toLower == b.toLower

/-- Whether the first list is a case-insensitive leading segment of the
second. -/
def ciLeads : List Char → List Char → Bool
  | [], _ => true
  | _ :: _, [] => false
  | p :: ps, c :: cs => ciEqChar p c && ciLeads ps cs

/-- The literal opening of a default clause. -/
def defaultPat : List Char :=
  "(default".data

/-- Number of positions at which the default-clause opening occurs, counted
case-insensitively. -/
def ciOccD : List Char → Nat
  | [] => 0
  | c :: rest => (if ciLeads defaultPat (c :: rest) then 1 else 0) + ciOccD rest

/-- Remove trailing JavaScript whitespace from a character list. -/
def trimEndL : List Char → List Char
  | [] => []
  | c :: rest =>
    match trimEndL rest with
    | [] => if isWs c then [] else [c]
    | r => c :: r

/-- Remove leading and trailing JavaScript whitespace from a character
list. -/
def trimBoth (l : List Char) : List Char :=
  trimEndL (l.dropWhile isWs)

/-- String-level JavaScript trim. -/
def jsTrim (s : String) : String :=
  String.mk (trimBoth s.data)

/-- Split a character list at its first closing parenthesis, returning the
segment before it and the remainder after it. -/
def splitAtRParen : List Char → Option (List Char × List Char)
  | [] => none
  | c :: rest =>
    if c = ')' then some ([], rest)
    else (splitAtRParen rest).map (fun pr => (c :: pr.1, pr.2))

/-- Match the tail of the default-clause pattern after an optional literal
"is": required whitespace, then a nonempty parenthesis-free capture, the
closing parenthesis, and trailing whitespace up to the end. When the capture
region before the closing parenthesis is empty, backtracking surrenders the
last whitespace character to the capture instead, provided the whitespace
run has at least two characters. Returns the captured group. -/
def tailCore (t : List Char) : Option (List Char) :=
  let ws := t.takeWhile isWs
  let rest := t.dropWhile isWs
  if ws.isEmpty then none
  else
    match splitAtRParen rest with
    | none => none
    | some (a, after) =>
      if !(after.all isWs) then none
      else if !a.isEmpty then some a
      else if 2 ≤ ws.length then some (ws.drop (ws.length - 1))
      else none

/-- Match the default-clause tail in its variant with the optional literal
"is": required whitespace, the two letters, then the core tail. -/
def tailWithIs (t : List Char) : Option (List Char) :=
  let ws := t.takeWhile isWs
  let rest := t.dropWhile isWs
  if ws.isEmpty then none
  else
    match rest with
    | c1 :: c2 :: rest2 =>
      if ciEqChar 'i' c1 && ciEqChar 's' c2 then tailCore rest2 else none
    | _ => none

/-- Match what follows the default-clause opening, preferring the variant
with the literal "is" as the greedy optional group does, and falling back to
the plain variant. -/
def matchTail (t : List Char) : Option (List Char) :=
  match tailWithIs t with
  | some g => some g
  | none => tailCore t

/-- Leftmost-match scan for the trailing default clause: at each position a
case-insensitive occurrence of the clause opening is tried together with the
tail pattern, and the first success returns the characters before the match
along with the captured group. -/
def scanDefault : List Char → Option (List Char × List Char)
  | [] => none
  | c :: rest =>
    match (if ciLeads defaultPat (c :: rest) then matchTail (List.drop 8 (c :: rest)) else none) with
    | some g => some ([], g)
    | none => (scanDefault rest).map (fun pr => (c :: pr.1, pr.2))

/-- Result of extractDefault: the description with the trailing default
clause removed, plus the raw default text when one was found. -/
structure DefaultResult where
  cleaned : String
  defaultRaw : Option String
deriving DecidableEq, Repr

/-- Extract a trailing parenthesized default clause from a help description:
when the pattern matches, the cleaned text is everything before the match
with trailing whitespace removed, and the raw default is the trimmed
capture. -/
def extractDefault (desc : String) : DefaultResult :=
  match scanDefault desc.data with
  | none => ⟨desc, none⟩
  | some (pre, g) => ⟨String.mk (trimEndL pre), some (String.mk (trimBoth g))⟩

/-- Collect the characters strictly inside a parenthesized group: everything
up to the first closing parenthesis, failing on a nested opening
parenthesis, and returning the remainder after the closing one. -/
def takeInner : List Char → Option (List Char × List Char)
  | [] => none
  | c :: rest =>
    if c = ')' then some ([], rest)
    else if c = '(' then none
    else (takeInner rest).map (fun pr => (c :: pr.1, pr.2))

/-- Leftmost-match scan for a parenthesized, parenthesis-free group that
contains at least one pipe character; returns the characters before the
group, the group content, and the characters after the group. -/
def scanEnum : List Char → Option (List Char × List Char × List Char)
  | [] => none
  | c :: rest =>
    match (if c = '(' then
             match takeInner rest with
             | some (content, after) =>
               if content.contains '|' then some (content, after) else none
             | none => none
           else none) with
    | some (content, after) => some ([], content, after)
    | none => (scanEnum rest).map (fun pr => (c :: pr.1, pr.2.1, pr.2.2))

/-- JavaScript split on the pipe character. -/
def splitOnPipe : List Char → List (List Char)
  | [] => [[]]
  | c :: rest =>
    if c = '|' then [] :: splitOnPipe rest
    else
      match splitOnPipe rest with
      | [] => [[c]]
      | g :: gs => (c :: g) :: gs

/-- Worker for squeezeWs: when skipping is set the scan is inside a
whitespace run that has already been replaced by a single space, and further
whitespace characters of the run are dropped. Outside a run, a whitespace
character followed by another one opens a replaced run, while an isolated
whitespace character is kept verbatim. -/
def squeezeWsGo (skipping : Bool) : List Char → List Char
  | [] => []
  | c :: rest =>
    if skipping then
      if isWs c then squeezeWsGo true rest
      else c :: squeezeWsGo false rest
    else if isWs c then
      match rest with
      | d :: _ =>
        if isWs d then ' ' :: squeezeWsGo true rest
        else c :: squeezeWsGo false rest
      | [] => [c]
    else c :: squeezeWsGo false rest

/-- Replace every run of two or more JavaScript whitespace characters by a
single space, leaving isolated whitespace characters untouched. -/
def squeezeWs (l : List Char) : List Char :=
  squeezeWsGo false l

/-- Result of extractEnum: the description with the enum clause removed and
whitespace normalized, plus the enum tokens when confidently detected. -/
structure EnumResult where
  cleaned : String
  enum : Option (List String)
deriving DecidableEq, Repr

/-- Extract a simple pipe-separated enum from a help description: the first
parenthesized pipe-containing group is split on pipes, tokens are trimmed
and empties dropped, and the result is accepted only when at least two
tokens remain and every token consists of simple characters; on acceptance
the clause is cut out of the description, runs of whitespace are squeezed,
and the ends are trimmed. -/
def extractEnum (desc : String) : EnumResult :=
  match scanEnum desc.data with
  | none => ⟨desc, none⟩
  | some (bef, content, aft) =>
    let parts := ((splitOnPipe content).map trimBoth).filter (fun p => !p.isEmpty)
    if parts.length < 2 || parts.any (fun p => !p.all isSimpleChar) then ⟨desc, none⟩
    else ⟨String.mk (trimBoth (squeezeWs (bef ++ aft))), some (parts.map String.mk)⟩

/-- Canonical type tokens emitted in help output; a captured type word not in
this whitelist is treated as description text. -/
def KNOWN_TYPE_TOKENS : List String :=
  ["string", "strings", "int", "int64", "uint", "uint64", "float64",
   "bool", "boolean", "file", "duration", "ints"]

/-- Map a possibly absent type token to a normalized flag kind: absent means
boolean, known tokens map to their kinds, and unrecognized tokens fall back
to string. -/
def mapTypeTokenToKind : Option String → FlagKind
  | none => FlagKind.boolean
  | some t =>
    match jsToLower t with
    | "bool" => FlagKind.boolean
    | "boolean" => FlagKind.boolean
    | "string" => FlagKind.string
    | "file" => FlagKind.string
    | "duration" => FlagKind.string
    | "strings" => FlagKind.stringList
    | "int" => FlagKind.number
    | "int64" => FlagKind.number
    | "uint" => FlagKind.number
    | "uint64" => FlagKind.number
    | "float64" => FlagKind.number
    | "ints" => FlagKind.numberList
    | _ => FlagKind.string

/-- Captured groups of the flag-line pattern: optional short alias, long
flag token, optional candidate type word, and the raw description text. -/
structure FlagGroups where
  short : Option String
  long : String
  type : Option String
  desc : String
deriving DecidableEq, Repr

/-- Composition of the two description extractors, as applied to a flag
description after type-token handling. -/
def cleanDescription (d : String) : String :=
  (extractEnum (extractDefault d).cleaned).cleaned

/-- Post-processing of one matched flag line: the help flag is dropped, a
captured type word outside the whitelist is pushed back onto the description
and forgotten as a type token, the default and enum clauses are extracted
from the description, and the kind is derived from the surviving type
token. -/
def processFlagLine (g : FlagGroups) : Option FlagSpec :=
  if g.long = "--help" then none
  else
    let desc0 := jsTrim g.desc
    let resolved : Option String × String :=
      match g.type with
      | some t =>
        if KNOWN_TYPE_TOKENS.contains (jsToLower t) then (some t, desc0)
        else (none, jsTrim (t ++ " " ++ desc0))
      | none => (none, desc0)
    let defR := extractDefault resolved.2
    let enR := extractEnum defR.cleaned
    some { long := g.long, short := g.short, typeToken := resolved.1,
           kind := mapTypeTokenToKind resolved.1, description := enR.cleaned,
           defaultRaw := defR.defaultRaw, enum := enR.enum }

/-- Parsed help metadata of one command node of the discovered tree: the
path to the node, its local flags, the global flags listed in its help text,
and the names of its immediate subcommands. -/
structure CommandSpec where
  pathTokens : List String
  flags : List FlagSpec
  globalFlags : List FlagSpec
  subcommands : List String
deriving DecidableEq, Repr

/-- JavaScript Array.prototype.join with a single-space separator, used to
key visited command paths and to name commands in the runtime schema. -/
def joinKey : List String → String
  | [] => ""
  | [t] => t
  | t :: rest => t ++ " " ++ joinKey rest

/-- Worker for dedupeByLong, carrying the set of long names already seen. -/
def dedupeGo (seen : List String) : List FlagSpec → List FlagSpec
  | [] => []
  | f :: rest =>
    if f.long ∈ seen then dedupeGo seen rest
    else f :: dedupeGo (seen ++ [f.long]) rest

/-- Deduplicate flags by their long name, keeping the first occurrence of
each long name in order. -/
def dedupeByLong (flags : List FlagSpec) : List FlagSpec :=
  dedupeGo [] flags

/-- The schema assembler: global flags are the deduplicated union of the
global-flag sections of all discovered nodes, the synthetic root node is
dropped, every surviving node loses the local flags whose long name is
already global, and each node is keyed by its space-joined path. -/
def assemble (specs : List CommandSpec) : HugoSpec :=
  let globalFlagsAll := specs.flatMap (fun c => c.globalFlags)
  let globalFlags := dedupeByLong globalFlagsAll
  let globalLongSet := globalFlags.map (fun f => f.long)
  let cleanedCommands :=
    (specs.filter (fun c => c.pathTokens.head? != some "root")).map
      (fun c => { c with flags := c.flags.filter (fun f => !globalLongSet.contains f.long) })
  { globalFlags := globalFlags,
    commands := cleanedCommands.map (fun c => { command := joinKey c.pathTokens, flags := c.flags }) }

/-- Abstraction of one parsed help response delivered by the external help
provider: local flags, global flags and subcommand names of the probed
node. -/
structure HelpData where
  flags : List FlagSpec
  globalFlags : List FlagSpec
  subcommands : List String
deriving DecidableEq, Repr

/-- Fuel-indexed embedding of the breadth-first discovery loop: the queue is
seeded with the root path outside, a dequeued path whose space-joined key
was already visited is skipped, and an unvisited path is marked visited,
recorded as a command spec (the root under a synthetic single-token path),
and its subcommand paths are appended to the queue. The result is none when
the fuel runs out before the queue empties. -/
def discoverLoop (provider : List String → HelpData) :
    Nat → List (List String) → List String → List CommandSpec →
      Option (List CommandSpec)
  | _, [], _, acc => some acc
  | 0, _ :: _, _, _ => none
  | Nat.succ fuel, tokens :: rest, visited, acc =>
    let key := joinKey tokens
    if key ∈ visited then discoverLoop provider fuel rest visited acc
    else
      let h := provider tokens
      let pathTokens := if tokens.isEmpty then ["root"] else tokens
      let spec : CommandSpec :=
        ⟨pathTokens, h.flags, h.globalFlags, h.subcommands⟩
      discoverLoop provider fuel
        (rest ++ h.subcommands.map (fun sub => tokens ++ [sub]))
        (visited ++ [key]) (acc ++ [spec])

/-- Weighted size of the queue used to bound the running time of the
discovery loop under a branching bound B and a depth bound L: a path of
length d weighs the (L minus d)th power of B plus one. -/
def qMeasure (B L : Nat) (queue : List (List String)) : Nat :=
  queue.foldr (fun p acc => (B + 1) ^ (L - p.length) + acc) 0

end GenTypes

/-- Transcription of the specification wording for the runtime kind
inference fallback, used only for comparison against inferKind: booleans map
to boolean, numbers to number, arrays of numbers to number-list, arrays of
anything else to string-list, and all other values to string. -/
def claimInferKind : JSValue → FlagKind
  | JSValue.bool _ => FlagKind.boolean
  | JSValue.num _ => FlagKind.number
  | JSValue.arr l =>
    if l.all isNumValue then FlagKind.numberList else FlagKind.stringList
  | _ => FlagKind.string

/-- The baseURL flag as it appears in the generated schema. -/
def baseURLFlag : FlagSpec :=
  { long := "--baseURL", short := some "-b", typeToken := some "string",
    kind := FlagKind.string, description := "hostname and path to the root" }

/-- Schema holding only the baseURL flag. -/
def baseURLSpec : HugoSpec :=
  ⟨[baseURLFlag], []⟩

/-- Schema in which an earlier flag spelled with the hyphenated long name
shadows the mixed-case baseURL flag under kebab-case lookup. -/
def shadowSpec : HugoSpec :=
  ⟨[{ long := "--base-u-r-l", kind := FlagKind.string }, baseURLFlag], []⟩

/-- Schema declaring theme as a global string-list flag. -/
def themeSpec : HugoSpec :=
  ⟨[{ long := "--theme", typeToken := some "strings",
      kind := FlagKind.stringList, description := "themes to use" }], []⟩

/-- Schema declaring minify as a local boolean flag of the build command. -/
def minifySpec : HugoSpec :=
  ⟨[], [⟨"build", [{ long := "--minify", kind := FlagKind.boolean,
                     description := "minifies any supported output format" }]⟩]⟩

/-- Schema whose only command entry is build, with no flags anywhere. -/
def soloBuildSpec : HugoSpec :=
  ⟨[], [⟨"build", []⟩]⟩

/-- Deduplication fixtures: a global verbose flag and a local minify flag. -/
def verboseFlag : FlagSpec :=
  { long := "--verbose", kind := FlagKind.boolean }

/-- Local minify flag used by the assembler fixtures. -/
def minifyFlag : FlagSpec :=
  { long := "--minify", kind := FlagKind.boolean }

/-- Discovered command specs for the assembler fixtures: the synthetic root
plus a build command whose local flags repeat the global verbose flag. -/
def fixtureSpecs : List GenTypes.CommandSpec :=
  [⟨["root"], [], [verboseFlag], ["build"]⟩,
   ⟨["build"], [verboseFlag, minifyFlag], [verboseFlag], []⟩]

/-- Captured groups of a boolean flag line whose description starts with a
word that the pattern mis-captures as a candidate type token. -/
def draftsGroups : GenTypes.FlagGroups :=
  ⟨none, "--buildDrafts", some "include", "drafts and future posts"⟩

/-- The flag spec produced for draftsGroups after the whitelist guard pushes
the captured word back onto the description. -/
def draftsFlag : FlagSpec :=
  { long := "--buildDrafts", kind := FlagKind.boolean,
    description := "include drafts and future posts" }

/-- Help provider reporting a fresh subcommand named x at every node, so the
discovered paths form an unbounded chain. -/
def badProvider : List String → GenTypes.HelpData :=
  fun _ => ⟨[], [], ["x"]⟩

/-- Help provider reporting no subcommands at all. -/
def trivProvider : List String → GenTypes.HelpData :=
  fun _ => ⟨[], [], []⟩

theorem emitList_eq_flatMap (flagName : String) (items : List JSValue) :
    emitList flagName items = items.flatMap (fun item => [flagName, jsToString item]) := by
  induction items with
  | nil => rfl
  | cons v rest ih => simp [emitList, ih]

/-- C3: for a flag resolved to a list kind whose value is an array, buildArgs
emits the flag token once per array element, each occurrence immediately
followed by the string representation of that element, in array order; in
particular building the theme example yields the flag exactly three times,
followed respectively by the three array elements. -/
theorem c3_list_kind_emission :
    (∀ (flagName : String) (items : List JSValue),
        formatFlag flagName FlagKind.stringList (JSValue.arr items) =
          items.flatMap (fun item => [flagName, jsToString item]) ∧
        formatFlag flagName FlagKind.numberList (JSValue.arr items) =
          items.flatMap (fun item => [flagName, jsToString item])) ∧
    buildArgs themeSpec "build"
        [("theme", JSValue.arr [JSValue.str "a", JSValue.str "b", JSValue.str "c"])] =
      ["build", "--theme", "a", "--theme", "b", "--theme", "c"] ∧
    (buildArgs themeSpec "build"
        [("theme", JSValue.arr [JSValue.str "a", JSValue.str "b", JSValue.str "c"])]).count
        "--theme" = 3 := by
  refine ⟨fun flagName items => ⟨?_, ?_⟩, by decide, by decide⟩
  · simp [formatFlag, emitList_eq_flatMap]
  · simp [formatFlag, emitList_eq_flatMap]

/-- C4: for a flag resolved to boolean kind, buildArgs emits the bare flag
token exactly when the supplied value is literally true, and emits nothing
for any other value; in particular the minify example emits the token for
true and nothing for false. -/
theorem c4_boolean_emission :
    (∀ (flagName : String) (v : JSValue),
        (v = JSValue.bool true → formatFlag flagName FlagKind.boolean v = [flagName]) ∧
        (v ≠ JSValue.bool true → formatFlag flagName FlagKind.boolean v = [])) ∧
    buildArgs minifySpec "build" [("minify", JSValue.bool true)] = ["build", "--minify"] ∧
    buildArgs minifySpec "build" [("minify", JSValue.bool false)] = ["build"] := by
  refine ⟨fun flagName v => ⟨?_, ?_⟩, by decide, by decide⟩
  · rintro rfl; rfl
  · intro h
    cases v with
    | bool b => cases b with
      | false => rfl
      | true => exact absurd rfl h
    | num n => rfl
    | str s => rfl
    | arr l => rfl
    | null => rfl
    | undef => rfl

theorem c4_witness :
    formatFlag "--minify" FlagKind.boolean (JSValue.bool true) = ["--minify"] ∧
    formatFlag "--minify" FlagKind.boolean (JSValue.str "yes") = [] :=
  ⟨(c4_boolean_emission.1 "--minify" (JSValue.bool true)).1 rfl,
   (c4_boolean_emission.1 "--minify" (JSValue.str "yes")).2 (by simp)⟩

/-- C6 counterexample: the claim maps arrays by their element contents, but
the code inspects only the first element, so a mixed array starting with a
number infers number-list where the claim requires string-list, and the
empty array (vacuously an array of numbers) infers string-list where the
claim requires number-list. -/
theorem c6_counterexample :
    inferKind (JSValue.arr [JSValue.num 1, JSValue.str "a"]) = FlagKind.numberList ∧
    claimInferKind (JSValue.arr [JSValue.num 1, JSValue.str "a"]) = FlagKind.stringList ∧
    inferKind (JSValue.arr []) = FlagKind.stringList ∧
    claimInferKind (JSValue.arr []) = FlagKind.numberList := by
  exact ⟨rfl, by decide, rfl, by decide⟩

/-- C6 amended: for options keys with no matching spec, the kind is inferred
from the runtime type as booleans to boolean, numbers to number, arrays
whose first element is a number to number-list, all other arrays (including
the empty one) to string-list, and everything else to string. -/
theorem c6_amended_infer_kind :
    (∀ b, inferKind (JSValue.bool b) = FlagKind.boolean) ∧
    (∀ n, inferKind (JSValue.num n) = FlagKind.number) ∧
    (∀ s, inferKind (JSValue.str s) = FlagKind.string) ∧
    inferKind JSValue.null = FlagKind.string ∧
    inferKind JSValue.undef = FlagKind.string ∧
    inferKind (JSValue.arr []) = FlagKind.stringList ∧
    (∀ v l, inferKind (JSValue.arr (v :: l)) =
        if isNumValue v then FlagKind.numberList else FlagKind.stringList) := by
  refine ⟨fun b => rfl, fun n => rfl, fun s => rfl, rfl, rfl, rfl, fun v l => ?_⟩
  cases v <;> rfl

/-- C1 counterexample: in a schema that also contains a flag spelled with
the hyphenated long name, the lookup for key baseURL resolves to that
earlier flag (kebab-case comparison matches first), so buildArgs emits the
hyphenated token and never the verbatim mixed-case one, even though the
flag list does contain a spec with the long name spelled baseURL. -/
theorem c1_counterexample :
    (∃ f, f ∈ shadowSpec.globalFlags ∧ f.long = "--baseURL") ∧
    buildArgs shadowSpec "build" [("baseURL", JSValue.str "x")] =
      ["build", "--base-u-r-l", "x"] ∧
    "--baseURL" ∉ buildArgs shadowSpec "build" [("baseURL", JSValue.str "x")] := by
  refine ⟨⟨baseURLFlag, by decide, rfl⟩, by decide, by decide⟩

/-- C1 amended: when the lookup for key baseURL resolves (first match wins)
to a string-kind flag whose long name is the verbatim mixed-case token,
buildArgs emits that token unchanged; and when a key matches no flag in the
union of global and command-local flags, buildArgs emits the hyphen
converted name, here the token for someUnknownFlag. -/
theorem c1_amended_roundtrip (spec : HugoSpec) (cmd : String) (f : FlagSpec) (s t : String)
    (h1 : findFlag (allFlagsFor spec cmd) "baseURL" = some f)
    (h2 : f.long = "--baseURL") (h3 : f.kind = FlagKind.string)
    (h4 : findFlag (allFlagsFor spec cmd) "someUnknownFlag" = none) :
    buildArgs spec cmd [("baseURL", JSValue.str s)] =
      jsSplitSpace cmd ++ ["--baseURL", s] ∧
    buildArgs spec cmd [("someUnknownFlag", JSValue.str t)] =
      jsSplitSpace cmd ++ ["--some-unknown-flag", t] := by
  constructor
  · have hd : hasDashes "--baseURL" = true := rfl
    simp [buildArgs, emitOpts, h1, h2, h3, hd, formatFlag, jsToString]
  · have hk : camelToKebab "someUnknownFlag" = "some-unknown-flag" := rfl
    have ha : "--" ++ "some-unknown-flag" = "--some-unknown-flag" := rfl
    simp [buildArgs, emitOpts, h4, hk, ha, formatFlag, inferKind, jsToString]

theorem c1_witness :
    buildArgs baseURLSpec "build" [("baseURL", JSValue.str "x")] =
      jsSplitSpace "build" ++ ["--baseURL", "x"] ∧
    buildArgs baseURLSpec "build" [("someUnknownFlag", JSValue.str "y")] =
      jsSplitSpace "build" ++ ["--some-unknown-flag", "y"] :=
  c1_amended_roundtrip baseURLSpec "build" baseURLFlag "x" "y"
    (by decide) (by decide) (by decide) (by decide)

/-- C10: a command string matching no entry of the schema is not an error:
buildArgs still returns the space-split command tokens followed by the
options serialized against the global flags alone, and a key not found among
the global flags falls back to the hyphenated name with runtime-type kind
inference. -/
theorem c10_unknown_command (spec : HugoSpec) (cmd : String)
    (opts : List (String × JSValue))
    (h : spec.commands.find? (fun c => c.command == cmd) = none) :
    buildArgs spec cmd opts = jsSplitSpace cmd ++ emitOpts spec.globalFlags opts ∧
    (∀ (k : String) (v : JSValue), findFlag spec.globalFlags k = none →
        v ≠ JSValue.null → v ≠ JSValue.undef →
        emitOpts spec.globalFlags [(k, v)] =
          formatFlag ("--" ++ camelToKebab k) (inferKind v) v) := by
  have ha : allFlagsFor spec cmd = spec.globalFlags := by
    simp [allFlagsFor, h]
  constructor
  · cases opts with
    | nil => simp [buildArgs, emitOpts]
    | cons p rest => simp [buildArgs, ha]
  · intro k v hf hn hu
    cases v with
    | null => exact absurd rfl hn
    | undef => exact absurd rfl hu
    | bool b => simp [emitOpts, hf]
    | num n => simp [emitOpts, hf]
    | str s => simp [emitOpts, hf]
    | arr l => simp [emitOpts, hf]

theorem c10_witness :
    buildArgs soloBuildSpec "serve" [("someFlag", JSValue.str "v")] =
      jsSplitSpace "serve" ++ emitOpts soloBuildSpec.globalFlags [("someFlag", JSValue.str "v")] ∧
    emitOpts soloBuildSpec.globalFlags [("someFlag", JSValue.str "v")] =
      formatFlag ("--" ++ camelToKebab "someFlag") (inferKind (JSValue.str "v"))
        (JSValue.str "v") :=
  ⟨(c10_unknown_command soloBuildSpec "serve" [("someFlag", JSValue.str "v")] (by decide)).1,
   (c10_unknown_command soloBuildSpec "serve" [] (by decide)).2 "someFlag"
     (JSValue.str "v") (by decide) (by simp) (by simp)⟩

theorem joinKey_eq_root {l : List String} (h : GenTypes.joinKey l = "root") :
    l = ["root"] := by
  match l with
  | [] => exact absurd h (by decide)
  | [t] =>
    simp only [GenTypes.joinKey] at h
    rw [h]
  | t :: u :: rest =>
    exfalso
    have hd : (t ++ " " ++ GenTypes.joinKey (u :: rest)).data = "root".data :=
      congrArg String.data h
    rw [String.data_append, String.data_append] at hd
    have hmem : ' ' ∈ "root".data := by
      rw [← hd]
      exact List.mem_append_left _ (List.mem_append_right _ (by decide))
    exact absurd hmem (by decide)

theorem contains_eq_false_iff (a : String) (l : List String) :
    l.contains a = false ↔ a ∉ l := by
  simp

/-- C2: for every schema assembled from any list of discovered command
specs, no flag of a command entry has a long name that also occurs among the
deduplicated global flags, and the commands list has no entry for the
synthetic root node. -/
theorem c2_assemble_invariant (specs : List GenTypes.CommandSpec) :
    (∀ c, c ∈ (GenTypes.assemble specs).commands → ∀ f, f ∈ c.flags →
        f.long ∉ (GenTypes.assemble specs).globalFlags.map (fun g => g.long)) ∧
    (∀ c, c ∈ (GenTypes.assemble specs).commands → c.command ≠ "root") := by
  constructor
  · intro c hc f hf
    simp only [GenTypes.assemble, List.mem_map] at hc
    obtain ⟨o2, ⟨o, ho, rfl⟩, rfl⟩ := hc
    simp only [List.mem_filter] at hf
    have hcont := hf.2
    simp only [Bool.not_eq_eq_eq_not, Bool.not_true] at hcont
    rw [contains_eq_false_iff] at hcont
    simpa [GenTypes.assemble] using hcont
  · intro c hc
    simp only [GenTypes.assemble, List.mem_map, List.mem_filter] at hc
    obtain ⟨o2, ⟨o, ⟨ho, hroot⟩, rfl⟩, rfl⟩ := hc
    intro h
    have : o.pathTokens = ["root"] := joinKey_eq_root h
    rw [this] at hroot
    simp at hroot

theorem c2_witness :
    minifyFlag.long ∉ (GenTypes.assemble fixtureSpecs).globalFlags.map (fun g => g.long) ∧
    (⟨"build", [minifyFlag]⟩ : CommandSpec).command ≠ "root" :=
  ⟨(c2_assemble_invariant fixtureSpecs).1 ⟨"build", [minifyFlag]⟩ (by decide)
     minifyFlag (by decide),
   (c2_assemble_invariant fixtureSpecs).2 ⟨"build", [minifyFlag]⟩ (by decide)⟩

/-- C5: for every matched flag line whose captured candidate type word is
not in the whitelist of known type tokens, the parser records no type token,
prefixes the captured word back onto the trimmed description before the
default and enum extraction, and the resulting flag spec has boolean kind,
the default for an absent type token. -/
theorem c5_unknown_type_token (g : GenTypes.FlagGroups) (t : String) (fs : FlagSpec)
    (ht : g.type = some t)
    (hunknown : GenTypes.KNOWN_TYPE_TOKENS.contains (jsToLower t) = false)
    (hres : GenTypes.processFlagLine g = some fs) :
    fs.typeToken = none ∧ fs.kind = FlagKind.boolean ∧
    fs.description =
      GenTypes.cleanDescription (GenTypes.jsTrim (t ++ " " ++ GenTypes.jsTrim g.desc)) := by
  by_cases hlong : g.long = "--help"
  · rw [GenTypes.processFlagLine, if_pos hlong] at hres
    exact absurd hres (by simp)
  · simp only [GenTypes.processFlagLine, if_neg hlong, ht, hunknown, Bool.false_eq_true,
      if_false, Option.some.injEq] at hres
    subst hres
    exact ⟨rfl, rfl, rfl⟩

theorem c5_witness :
    draftsFlag.typeToken = none ∧ draftsFlag.kind = FlagKind.boolean ∧
    draftsFlag.description =
      GenTypes.cleanDescription
        (GenTypes.jsTrim ("include" ++ " " ++ GenTypes.jsTrim "drafts and future posts")) :=
  c5_unknown_type_token draftsGroups "include" draftsFlag rfl (by decide) (by decide)

theorem simple_char_not_ws (c : Char) (h : GenTypes.isSimpleChar c = true) :
    GenTypes.isWs c = false := by
  simp only [GenTypes.isSimpleChar, Bool.or_eq_true, Bool.and_eq_true, beq_iff_eq,
    decide_eq_true_eq] at h
  simp only [GenTypes.isWs, Bool.or_eq_false_iff, Bool.and_eq_false_iff,
    beq_eq_false_iff_ne, ne_eq, decide_eq_false_iff_not, not_le]
  omega

/-- C8: whenever extractEnum accepts an enum from a description, the
accepted list has at least two tokens and no accepted token contains a
whitespace character, because every token character must pass the simple
character pattern. -/
theorem c8_enum_guard (desc : String) (l : List String)
    (h : (GenTypes.extractEnum desc).enum = some l) :
    2 ≤ l.length ∧ ∀ tok, tok ∈ l → ∀ c, c ∈ tok.data → GenTypes.isWs c = false := by
  unfold GenTypes.extractEnum at h
  split at h
  · simp at h
  · next bef content aft _ =>
    dsimp only at h
    split at h
    · simp at h
    · next hguard =>
      simp only at h
      rw [Option.some.injEq] at h
      subst h
      simp only [Bool.or_eq_true, decide_eq_true_eq, not_or] at hguard
      obtain ⟨hlen, hany⟩ := hguard
      constructor
      · rw [List.length_map]
        omega
      · intro tok htok c hc
        rw [List.mem_map] at htok
        obtain ⟨p, hp, rfl⟩ := htok
        have hall : p.all GenTypes.isSimpleChar = true := by
          by_contra hcon
          exact hany (List.any_eq_true.mpr ⟨p, hp, by simp [hcon]⟩)
        exact simple_char_not_ws c (List.all_eq_true.mp hall c hc)

theorem c8_witness :
    2 ≤ (["debug", "info", "warn", "error"] : List String).length ∧
    ∀ tok, tok ∈ (["debug", "info", "warn", "error"] : List String) →
      ∀ c, c ∈ tok.data → GenTypes.isWs c = false :=
  c8_enum_guard "log level (debug|info|warn|error)"
    ["debug", "info", "warn", "error"] (by decide)

theorem ciLeads_append (pat t : List Char) :
    ∀ l, GenTypes.ciLeads pat l = true → GenTypes.ciLeads pat (l ++ t) = true := by
  induction pat with
  | nil => intro l _; rfl
  | cons p ps ih =>
    intro l h
    cases l with
    | nil => exact absurd h (by simp [GenTypes.ciLeads])
    | cons c cs =>
      simp only [List.cons_append, GenTypes.ciLeads, Bool.and_eq_true] at h ⊢
      exact ⟨h.1, ih cs h.2⟩

theorem ciOccD_le_append (a t : List Char) :
    GenTypes.ciOccD a ≤ GenTypes.ciOccD (a ++ t) := by
  induction a with
  | nil => simp [GenTypes.ciOccD]
  | cons c a' ih =>
    simp only [List.cons_append, GenTypes.ciOccD, List.append_eq]
    have hmono : (if GenTypes.ciLeads GenTypes.defaultPat (c :: a') = true then 1 else 0) ≤
        (if GenTypes.ciLeads GenTypes.defaultPat (c :: (a' ++ t)) = true then 1 else 0) := by
      by_cases hc : GenTypes.ciLeads GenTypes.defaultPat (c :: a') = true
      · have h2 := ciLeads_append GenTypes.defaultPat t (c :: a') hc
        rw [List.cons_append] at h2
        simp [hc, h2]
      · simp [hc]
    omega

theorem ciOccD_split (a suf : List Char)
    (h : GenTypes.ciLeads GenTypes.defaultPat suf = true) :
    GenTypes.ciOccD a + 1 ≤ GenTypes.ciOccD (a ++ suf) := by
  induction a with
  | nil =>
    cases suf with
    | nil => exact absurd h (by decide)
    | cons c cs =>
      simp only [List.nil_append, GenTypes.ciOccD, h, if_true]
      omega
  | cons c a' ih =>
    simp only [List.cons_append, GenTypes.ciOccD, List.append_eq]
    have hmono : (if GenTypes.ciLeads GenTypes.defaultPat (c :: a') = true then 1 else 0) ≤
        (if GenTypes.ciLeads GenTypes.defaultPat (c :: (a' ++ suf)) = true then 1 else 0) := by
      by_cases hc : GenTypes.ciLeads GenTypes.defaultPat (c :: a') = true
      · have h2 := ciLeads_append GenTypes.defaultPat suf (c :: a') hc
        rw [List.cons_append] at h2
        simp [hc, h2]
      · simp [hc]
    omega

theorem scanDefault_some (l : List Char) :
    ∀ pre g, GenTypes.scanDefault l = some (pre, g) →
      ∃ suf, l = pre ++ suf ∧ GenTypes.ciLeads GenTypes.defaultPat suf = true := by
  induction l with
  | nil => intro pre g h; simp [GenTypes.scanDefault] at h
  | cons c rest ih =>
    intro pre g h
    simp only [GenTypes.scanDefault] at h
    cases hif : (if GenTypes.ciLeads GenTypes.defaultPat (c :: rest) = true then
        GenTypes.matchTail (List.drop 8 (c :: rest)) else none) with
    | some g0 =>
      rw [hif] at h
      rw [Option.some.injEq, Prod.mk.injEq] at h
      obtain ⟨h1, h2⟩ := h
      subst h1
      subst h2
      refine ⟨c :: rest, by simp, ?_⟩
      by_cases hc : GenTypes.ciLeads GenTypes.defaultPat (c :: rest) = true
      · exact hc
      · rw [if_neg hc] at hif
        exact absurd hif (by simp)
    | none =>
      rw [hif] at h
      rw [Option.map_eq_some'] at h
      obtain ⟨⟨pre', g'⟩, hrec, hpg⟩ := h
      rw [Prod.mk.injEq] at hpg
      obtain ⟨h1, h2⟩ := hpg
      subst h1; subst h2
      obtain ⟨suf, hsplit, hlead⟩ := ih pre' g' hrec
      exact ⟨suf, by simp [hsplit], hlead⟩

theorem trimEndL_append_eq (l : List Char) :
    ∃ t, GenTypes.trimEndL l ++ t = l := by
  induction l with
  | nil => exact ⟨[], rfl⟩
  | cons c rest ih =>
    obtain ⟨t, ht⟩ := ih
    cases htr : GenTypes.trimEndL rest with
    | nil =>
      cases hw : GenTypes.isWs c with
      | true =>
        refine ⟨c :: rest, ?_⟩
        simp [GenTypes.trimEndL, htr, hw]
      | false =>
        refine ⟨t, ?_⟩
        rw [htr] at ht
        simp only [List.nil_append] at ht
        simp [GenTypes.trimEndL, htr, hw, ht]
    | cons r rs =>
      refine ⟨t, ?_⟩
      have h1 : GenTypes.trimEndL (c :: rest) = c :: (r :: rs) := by
        simp [GenTypes.trimEndL, htr]
      rw [htr] at ht
      rw [h1, List.cons_append, ht]

theorem scanDefault_eq_none (l : List Char) (h : GenTypes.ciOccD l = 0) :
    GenTypes.scanDefault l = none := by
  induction l with
  | nil => rfl
  | cons c rest ih =>
    simp only [GenTypes.ciOccD] at h
    have hc : GenTypes.ciLeads GenTypes.defaultPat (c :: rest) = false := by
      by_contra hcon
      rw [Bool.not_eq_false] at hcon
      rw [hcon] at h
      simp at h
    have hrest : GenTypes.ciOccD rest = 0 := by
      rw [hc] at h
      simpa using h
    simp only [GenTypes.scanDefault, hc, Bool.false_eq_true, if_false]
    rw [ih hrest]
    rfl

/-- C7 counterexample: extractDefault is not idempotent: on a description
with two stacked default clauses the first application strips only the last
clause (the earlier clause cannot match because text follows it), and the
second application strips the remaining clause, changing the cleaned text
and extracting a further default. -/
theorem c7_counterexample :
    (GenTypes.extractDefault
        (GenTypes.extractDefault "x (default 1) (default 2)").cleaned).cleaned ≠
      (GenTypes.extractDefault "x (default 1) (default 2)").cleaned ∧
    (GenTypes.extractDefault
        (GenTypes.extractDefault "x (default 1) (default 2)").cleaned).defaultRaw ≠
      none := by
  decide

/-- C7 amended: extractDefault is idempotent on every description containing
at most one case-insensitive occurrence of the default-clause opening:
applying it to the cleaned description it returns yields that same cleaned
description back with no further default extracted. Descriptions with
stacked default clauses can lose a second clause on reapplication. -/
theorem c7_amended_idempotent (desc : String)
    (h : GenTypes.ciOccD desc.data ≤ 1) :
    (GenTypes.extractDefault (GenTypes.extractDefault desc).cleaned).cleaned =
      (GenTypes.extractDefault desc).cleaned ∧
    (GenTypes.extractDefault (GenTypes.extractDefault desc).cleaned).defaultRaw =
      none := by
  cases hscan : GenTypes.scanDefault desc.data with
  | none =>
    have e1 : GenTypes.extractDefault desc = ⟨desc, none⟩ := by
      unfold GenTypes.extractDefault
      rw [hscan]
    rw [e1]
    dsimp only
    rw [e1]
    exact ⟨rfl, rfl⟩
  | some pr =>
    obtain ⟨pre, g⟩ := pr
    have e1 : GenTypes.extractDefault desc =
        ⟨String.mk (GenTypes.trimEndL pre), some (String.mk (GenTypes.trimBoth g))⟩ := by
      unfold GenTypes.extractDefault
      rw [hscan]
    obtain ⟨suf, hsplit, hlead⟩ := scanDefault_some desc.data pre g hscan
    have h1 : GenTypes.ciOccD pre + 1 ≤ GenTypes.ciOccD desc.data := by
      rw [hsplit]
      exact ciOccD_split pre suf hlead
    have h2 : GenTypes.ciOccD pre = 0 := by omega
    obtain ⟨t, ht⟩ := trimEndL_append_eq pre
    have h3 : GenTypes.ciOccD (GenTypes.trimEndL pre) = 0 := by
      have hle := ciOccD_le_append (GenTypes.trimEndL pre) t
      rw [ht] at hle
      omega
    have e2 : GenTypes.extractDefault (String.mk (GenTypes.trimEndL pre)) =
        ⟨String.mk (GenTypes.trimEndL pre), none⟩ := by
      unfold GenTypes.extractDefault
      rw [scanDefault_eq_none _ h3]
    rw [e1]
    dsimp only
    rw [e2]
    exact ⟨rfl, rfl⟩

theorem c7_witness :
    (GenTypes.extractDefault
        (GenTypes.extractDefault "listen port (default 1313)").cleaned).cleaned =
      (GenTypes.extractDefault "listen port (default 1313)").cleaned ∧
    (GenTypes.extractDefault
        (GenTypes.extractDefault "listen port (default 1313)").cleaned).defaultRaw =
      none :=
  c7_amended_idempotent "listen port (default 1313)" (by decide)

theorem qMeasure_append (B L : Nat) (a b : List (List String)) :
    GenTypes.qMeasure B L (a ++ b) =
      GenTypes.qMeasure B L a + GenTypes.qMeasure B L b := by
  induction a with
  | nil => simp [GenTypes.qMeasure]
  | cons p rest ih =>
    simp only [List.cons_append, GenTypes.qMeasure, List.foldr_cons] at *
    omega

theorem qMeasure_map (B L : Nat) (p : List String) (subs : List String) :
    GenTypes.qMeasure B L (subs.map (fun sub => p ++ [sub])) =
      subs.length * (B + 1) ^ (L - (p.length + 1)) := by
  induction subs with
  | nil => simp [GenTypes.qMeasure]
  | cons s rest ih =>
    simp only [List.map_cons, GenTypes.qMeasure, List.foldr_cons, List.length_cons] at *
    have hlen : (p ++ [s]).length = p.length + 1 := by simp
    rw [hlen, Nat.succ_mul]
    omega

theorem qMeasure_cons (B L : Nat) (p : List String) (rest : List (List String)) :
    GenTypes.qMeasure B L (p :: rest) =
      (B + 1) ^ (L - p.length) + GenTypes.qMeasure B L rest := rfl

theorem discoverLoop_total (provider : List String → GenTypes.HelpData) (B L : Nat)
    (hB : ∀ p, ((provider p).subcommands).length ≤ B)
    (hL : ∀ p, L ≤ p.length → (provider p).subcommands = []) :
    ∀ (n : Nat) (queue : List (List String)) (visited : List String)
      (acc : List GenTypes.CommandSpec),
      GenTypes.qMeasure B L queue ≤ n →
      (GenTypes.discoverLoop provider n queue visited acc).isSome = true := by
  intro n
  induction n with
  | zero =>
    intro queue visited acc hq
    cases queue with
    | nil => simp [GenTypes.discoverLoop]
    | cons p rest =>
      exfalso
      have hpos : 0 < (B + 1) ^ (L - p.length) := pow_pos (Nat.succ_pos B) _
      rw [qMeasure_cons] at hq
      omega
  | succ m ih =>
    intro queue visited acc hq
    cases queue with
    | nil => simp [GenTypes.discoverLoop]
    | cons p rest =>
      rw [qMeasure_cons] at hq
      have hpos : 0 < (B + 1) ^ (L - p.length) := pow_pos (Nat.succ_pos B) _
      by_cases hv : GenTypes.joinKey p ∈ visited
      · simp only [GenTypes.discoverLoop, if_pos hv]
        apply ih
        omega
      · simp only [GenTypes.discoverLoop, if_neg hv]
        apply ih
        rw [qMeasure_append, qMeasure_map]
        rcases Nat.le_total L p.length with hge | hlt0
        · have hsub := hL p hge
          rw [hsub]
          have hz : L - p.length = 0 := by omega
          rw [hz, pow_zero] at hq
          simp only [List.length_nil, Nat.zero_mul]
          omega
        · rcases Nat.eq_or_lt_of_le hlt0 with heq | hlt
          · have hsub := hL p (by omega)
            rw [hsub]
            have hz : L - p.length = 0 := by omega
            rw [hz, pow_zero] at hq
            simp only [List.length_nil, Nat.zero_mul]
            omega
          have hsub := hB p
          have hd : L - p.length = (L - (p.length + 1)) + 1 := by omega
          rw [hd, pow_succ, Nat.mul_succ] at hq
          have hpos2 : 0 < (B + 1) ^ (L - (p.length + 1)) := pow_pos (Nat.succ_pos B) _
          have hmul : ((provider p).subcommands).length * (B + 1) ^ (L - (p.length + 1)) ≤
              B * (B + 1) ^ (L - (p.length + 1)) := Nat.mul_le_mul_right _ hsub
          rw [Nat.mul_comm B ((B + 1) ^ (L - (p.length + 1)))] at hmul
          omega

/-- C9 amended: the discovery loop skips a dequeued path whose space-joined
key is already visited (the defense against cycles), and it terminates for
every help provider whose command tree is bounded: when every node reports
at most B subcommands and nodes at depth L or deeper report none, some fuel
makes the loop finish. It does not terminate for every provider, as the
counterexample with an unbounded chain shows. -/
theorem c9_amended_termination :
    (∀ (provider : List String → GenTypes.HelpData) (fuel : Nat)
        (tokens : List String) (rest : List (List String)) (visited : List String)
        (acc : List GenTypes.CommandSpec),
        GenTypes.joinKey tokens ∈ visited →
        GenTypes.discoverLoop provider (fuel + 1) (tokens :: rest) visited acc =
          GenTypes.discoverLoop provider fuel rest visited acc) ∧
    (∀ (provider : List String → GenTypes.HelpData) (B L : Nat),
        (∀ p, ((provider p).subcommands).length ≤ B) →
        (∀ p, L ≤ p.length → (provider p).subcommands = []) →
        ∃ fuel, (GenTypes.discoverLoop provider fuel [[]] [] []).isSome = true) := by
  constructor
  · intro provider fuel tokens rest visited acc h
    simp [GenTypes.discoverLoop, h]
  · intro provider B L hB hL
    exact ⟨GenTypes.qMeasure B L [[]],
      discoverLoop_total provider B L hB hL _ [[]] [] [] le_rfl⟩

theorem c9_witness :
    GenTypes.discoverLoop trivProvider 1 [[]] [""] [] =
      GenTypes.discoverLoop trivProvider 0 [] [""] [] ∧
    ∃ fuel, (GenTypes.discoverLoop trivProvider fuel [[]] [] []).isSome = true :=
  ⟨c9_amended_termination.1 trivProvider 0 [] [] [""] [] (by decide),
   c9_amended_termination.2 trivProvider 0 0
     (fun p => by simp [trivProvider])
     (fun p _ => by simp [trivProvider])⟩

theorem chainKey_succ_succ (m : Nat) :
    GenTypes.joinKey (List.replicate (m + 2) "x") =
      "x" ++ " " ++ GenTypes.joinKey (List.replicate (m + 1) "x") := by
  rw [show List.replicate (m + 2) "x" = "x" :: List.replicate (m + 1) "x" from
    List.replicate_succ "x" (m + 1)]
  rw [show List.replicate (m + 1) "x" = "x" :: List.replicate m "x" from
    List.replicate_succ "x" m]
  rfl

theorem chainKey_len_lt (n : Nat) :
    (GenTypes.joinKey (List.replicate n "x")).length <
      (GenTypes.joinKey (List.replicate (n + 1) "x")).length := by
  cases n with
  | zero => decide
  | succ m =>
    have hx : ("x" ++ " " ++ GenTypes.joinKey (List.replicate (m + 1) "x")).length =
        (GenTypes.joinKey (List.replicate (m + 1) "x")).length + 2 := by
      rw [String.length_append, String.length_append]
      have h1 : ("x" : String).length = 1 := rfl
      have h2 : (" " : String).length = 1 := rfl
      omega
    rw [chainKey_succ_succ m, hx]
    omega

theorem discoverLoop_bad (fuel : Nat) :
    ∀ (n : Nat) (visited : List String) (acc : List GenTypes.CommandSpec),
      (∀ k, k ∈ visited →
        k.length < (GenTypes.joinKey (List.replicate n "x")).length) →
      GenTypes.discoverLoop badProvider fuel [List.replicate n "x"] visited acc =
        none := by
  induction fuel with
  | zero => intro n visited acc h; rfl
  | succ m ih =>
    intro n visited acc h
    have hkey : GenTypes.joinKey (List.replicate n "x") ∉ visited := by
      intro hmem
      exact absurd (h _ hmem) (lt_irrefl _)
    simp only [GenTypes.discoverLoop, if_neg hkey, badProvider, List.nil_append,
      List.map_cons, List.map_nil]
    rw [show List.replicate n "x" ++ ["x"] = List.replicate (n + 1) "x" from
      (List.replicate_succ' n "x").symm]
    apply ih (n + 1)
    intro k hk
    rw [List.mem_append] at hk
    rcases hk with hk | hk
    · exact lt_trans (h k hk) (chainKey_len_lt n)
    · simp only [List.mem_singleton] at hk
      rw [hk]
      exact chainKey_len_lt n

/-- C9 counterexample: the discovery loop does not terminate for every help
provider: against the provider that reports a fresh subcommand named x at
every node, the queue always holds a previously-unseen path, so the loop
consumes any amount of fuel without finishing. -/
theorem c9_counterexample :
    ¬ ∃ fuel, (GenTypes.discoverLoop badProvider fuel [[]] [] []).isSome = true := by
  rintro ⟨fuel, hf⟩
  have hnone := discoverLoop_bad fuel 0 [] [] (by intro k hk; cases hk)
  rw [List.replicate_zero] at hnone
  rw [hnone] at hf
  simp at hf
